import Mathlib

/-!
Verification of the bionic-reading text transform of `bionic.py`.

The development shallowly embeds `convert_to_bionic_str` (text → styled
runs) and `convert_to_bionic` (markup-tree text-node replacement).
Strings are modelled as `List Char`; Python's `str.isalnum` / `str.isspace`
are modelled by Lean's ASCII `Char.isAlphanum` / `Char.isWhitespace`
predicates; the regex splits `re.split(r'(\s+)', s)` and
`re.split(r'([-–—]+)', chunk)` (which split a string into the maximal runs
matching the class and the maximal gaps between them, keeping both) are
modelled by `splitRuns`, which groups a character list into maximal runs of
characters agreeing on a Boolean classifier.
-/

namespace Bionic

/-- The dash-like characters of the regex class `[-–—]`. -/
def isDashChar (c : Char) : Bool :=
  c = '-' || c = '–' || c = '—'

/-- Number of alphanumeric characters of a chunk
(`sum(1 for c in subchunk if c.isalnum())`). -/
def countAlnum : List Char → Nat
  | [] => 0
  | c :: cs => (if c.isAlphanum then 1 else 0) + countAlnum cs

/-- Maximal runs of characters agreeing on the classifier `p`: the model of
`re.split` with a kept delimiter group, with the empty boundary pieces
(which the source skips with `if not chunk: continue`) never produced. -/
def splitRuns (p : Char → Bool) : List Char → List (List Char)
  | [] => []
  | c :: cs =>
      (c :: cs.takeWhile (fun d => p d == p c)) ::
        splitRuns p (cs.dropWhile (fun d => p d == p c))
termination_by s => s.length
decreasing_by
  simp only [List.length_cons]
  exact Nat.lt_succ_of_le (List.dropWhile_sublist _).length_le

/-- The bold count computed at lines 63–68 of `bionic.py` for a chunk with
`alpha_count ≥ 1` alphanumerics.  Python's `int(alpha_count * 0.4)`
truncates `alpha_count * 0.4` toward zero, which equals `⌊2·n/5⌋`,
i.e. `2 * n / 5` in natural-number division (the double-precision product
rounds to the exact value for every count below `2 ^ 51`). -/
def bold_count_of (alpha_count : Nat) : Nat :=
  if alpha_count ≤ 3 then 1
  else if alpha_count = 4 then 2
  else max 1 (2 * alpha_count / 5)

/-- The scan of lines 70–83: walk the characters; when the running count of
alphanumerics first exceeds `bold_count`, return the scan position
(`some` of the offset from the start of the remaining list).  Returns
`none` when the loop falls through to the `else` clause (line 84). -/
def findCut (bold_count bold_chars : Nat) : List Char → Option Nat
  | [] => none
  | c :: cs =>
      if c.isAlphanum then
        if bold_chars + 1 > bold_count then some 0
        else (findCut bold_count (bold_chars + 1) cs).map (· + 1)
      else (findCut bold_count bold_chars cs).map (· + 1)

/-- One styled run: a string that is either wrapped in a `<b>` tag
(`bold = true`) or appended as a plain `NavigableString`. -/
structure Run where
  text : List Char
  bold : Bool
deriving DecidableEq, Repr

/-- Runs emitted for one content token (lines 57–89): zero alphanumerics is
passed through plain; otherwise the token is split at the scan position
into a bold prefix and a plain remainder, or fully bolded when the scan
falls through. -/
def contentRuns (t : List Char) : List Run :=
  if countAlnum t = 0 then [⟨t, false⟩]
  else
    match findCut (bold_count_of (countAlnum t)) 0 t with
    | some i => [⟨t.take i, true⟩, ⟨t.drop i, false⟩]
    | none => [⟨t, true⟩]

/-- Runs emitted for one dash-level token (lines 51–89): a token made only
of dash characters (`re.fullmatch(r'[-–—]+', subchunk)`) is left untouched,
anything else goes through the bionic transformation. -/
def subchunkRuns (t : List Char) : List Run :=
  if t.all isDashChar then [⟨t, false⟩] else contentRuns t

/-- Runs emitted for one whitespace-level chunk (lines 38–89): whitespace
is added directly, any other chunk is split on maximal dash runs. -/
def chunkRuns (chunk : List Char) : List Run :=
  if chunk.all Char.isWhitespace then [⟨chunk, false⟩]
  else (splitRuns isDashChar chunk).flatMap subchunkRuns

/-- The full text-to-styled-runs transform `convert_to_bionic_str`
(lines 21–91), as the ordered list of runs appended to the `span`. -/
def convert_to_bionic_str (s : List Char) : List Run :=
  (splitRuns Char.isWhitespace s).flatMap chunkRuns

/-- Concatenation of the text of a list of runs, in emission order. -/
def runsText (rs : List Run) : List Char :=
  (rs.map Run.text).flatten

/-! ## Content preservation -/

lemma flatten_splitRuns (p : Char → Bool) (s : List Char) :
    (splitRuns p s).flatten = s := by
  induction s using splitRuns.induct p with
  | case1 => simp [splitRuns]
  | case2 c cs ih =>
      rw [splitRuns]
      simp only [List.flatten_cons, List.cons_append, ih]
      rw [List.takeWhile_append_dropWhile]

lemma runsText_append (a b : List Run) :
    runsText (a ++ b) = runsText a ++ runsText b := by
  simp [runsText]

lemma runsText_contentRuns (t : List Char) : runsText (contentRuns t) = t := by
  unfold contentRuns
  split
  · simp [runsText]
  · split
    · simp [runsText]
    · simp [runsText]

lemma runsText_subchunkRuns (t : List Char) : runsText (subchunkRuns t) = t := by
  unfold subchunkRuns
  split
  · simp [runsText]
  · exact runsText_contentRuns t

lemma runsText_flatMap (f : List Char → List Run) (l : List (List Char))
    (h : ∀ x ∈ l, runsText (f x) = x) : runsText (l.flatMap f) = l.flatten := by
  induction l with
  | nil => simp [runsText]
  | cons x xs ih =>
      simp only [List.flatMap_cons, List.flatten_cons, runsText_append]
      rw [h x (List.mem_cons_self x xs), ih fun y hy => h y (List.mem_cons_of_mem x hy)]

lemma runsText_chunkRuns (chunk : List Char) : runsText (chunkRuns chunk) = chunk := by
  unfold chunkRuns
  split
  · simp [runsText]
  · rw [runsText_flatMap subchunkRuns _ fun x _ => runsText_subchunkRuns x,
      flatten_splitRuns]

/-- Claim C1: content preservation (round-trip).  For every input string
`s`, concatenating the text of every run produced by
`convert_to_bionic_str` in emission order — whitespace tokens, dash-run
tokens, zero-alphanumeric content tokens passed through, and the
bold/plain runs of each content token — yields exactly `s`. -/
theorem content_preservation (s : List Char) :
    runsText (convert_to_bionic_str s) = s := by
  unfold convert_to_bionic_str
  rw [runsText_flatMap chunkRuns _ fun x _ => runsText_chunkRuns x,
    flatten_splitRuns]

/-! ## The scan for the cut position -/

@[simp] lemma countAlnum_nil : countAlnum [] = 0 := rfl

@[simp] lemma countAlnum_cons (c : Char) (cs : List Char) :
    countAlnum (c :: cs) = (if c.isAlphanum then 1 else 0) + countAlnum cs := rfl

lemma countAlnum_append (a b : List Char) :
    countAlnum (a ++ b) = countAlnum a + countAlnum b := by
  induction a with
  | nil => simp
  | cons c cs ih => simp [ih]; omega

/-- The scan falls through to the full-bold clause exactly when the running
counter `bold_chars` never exceeds `bold_count`. -/
lemma findCut_eq_none (bc : Nat) :
    ∀ (t : List Char) (k : Nat), k ≤ bc →
      (findCut bc k t = none ↔ k + countAlnum t ≤ bc) := by
  intro t
  induction t with
  | nil => intro k hk; simpa [findCut] using hk
  | cons c cs ih =>
      intro k hk
      by_cases hc : c.isAlphanum
      · rw [findCut, if_pos hc]
        by_cases hbc : k + 1 > bc
        · simp [if_pos hbc, hc]
          omega
        · rw [if_neg hbc]
          cases hfc : findCut bc (k + 1) cs with
          | none =>
              have := (ih (k + 1) (by omega)).1 hfc
              simp [hc, hfc]
              omega
          | some a =>
              have : ¬ (k + 1 + countAlnum cs ≤ bc) := by
                intro hle
                rw [← ih (k + 1) (by omega)] at hle
                simp [hfc] at hle
              simp [hc, hfc]
              omega
      · rw [findCut, if_neg hc]
        cases hfc : findCut bc k cs with
        | none =>
            have := (ih k hk).1 hfc
            simp [hc, hfc]
            omega
        | some a =>
            have : ¬ (k + countAlnum cs ≤ bc) := by
              intro hle
              rw [← ih k hk] at hle
              simp [hfc] at hle
            simp [hc, hfc]
            omega

/-- When the scan stops at position `i`, the bold prefix `t.take i` holds
exactly `bc - k` alphanumerics, position `i` is the first at which the
counter would exceed `bc`, and `i` is inside the token. -/
lemma findCut_eq_some (bc : Nat) :
    ∀ (t : List Char) (k i : Nat), k ≤ bc → findCut bc k t = some i →
      i < t.length ∧ countAlnum (t.take i) + k = bc ∧
        bc < countAlnum (t.take (i + 1)) + k ∧
        ∀ j, j < i → countAlnum (t.take (j + 1)) + k ≤ bc := by
  intro t
  induction t with
  | nil => intro k i _ h; simp [findCut] at h
  | cons c cs ih =>
      intro k i hk h
      by_cases hc : c.isAlphanum
      · rw [findCut, if_pos hc] at h
        by_cases hbc : k + 1 > bc
        · rw [if_pos hbc] at h
          obtain rfl : (0 : Nat) = i := Option.some.inj h
          refine ⟨by simp, by simpa using (by omega : k = bc), ?_, by omega⟩
          simpa [hc] using (by omega : bc < 1 + k)
        · rw [if_neg hbc] at h
          cases hfc : findCut bc (k + 1) cs with
          | none => rw [hfc] at h; simp at h
          | some a =>
              rw [hfc] at h
              obtain rfl : a + 1 = i := by simpa using h
              obtain ⟨hlen, hpre, hexc, hmin⟩ := ih (k + 1) a (by omega) hfc
              refine ⟨by simpa using hlen, ?_, ?_, ?_⟩
              · simpa [hc] using (by omega : 1 + countAlnum (cs.take a) + k = bc)
              · simpa [hc] using (by omega : bc < 1 + countAlnum (cs.take (a + 1)) + k)
              · intro j hj
                cases j with
                | zero => simpa [hc] using (by omega : 1 + k ≤ bc)
                | succ j' =>
                    have := hmin j' (by omega)
                    simpa [hc] using (by omega : 1 + countAlnum (cs.take (j' + 1)) + k ≤ bc)
      · rw [findCut, if_neg hc] at h
        cases hfc : findCut bc k cs with
        | none => rw [hfc] at h; simp at h
        | some a =>
            rw [hfc] at h
            obtain rfl : a + 1 = i := by simpa using h
            obtain ⟨hlen, hpre, hexc, hmin⟩ := ih k a hk hfc
            refine ⟨by simpa using hlen, ?_, ?_, ?_⟩
            · simpa [hc] using hpre
            · simpa [hc] using hexc
            · intro j hj
              cases j with
              | zero => simpa [hc] using hk
              | succ j' =>
                  have := hmin j' (by omega)
                  simpa [hc] using this

/-! ## The emphasis length rule -/

/-- The emphasis length rule exactly as the specification's table states
it, including the zero-alphanumerics row (the source never calls its
`bold_count` computation with `alpha_count = 0`; that row corresponds to
the unstyled pass-through of line 61): `0 ↦ 0`, `1–3 ↦ 1`, `4 ↦ 2`,
`n ≥ 5 ↦ max 1 ⌊n·0.4⌋`. -/
def boldCountSpec (n : Nat) : Nat :=
  if n = 0 then 0
  else if n ≤ 3 then 1
  else if n = 4 then 2
  else max 1 (2 * n / 5)

lemma bold_count_of_pos (n : Nat) : 1 ≤ bold_count_of n := by
  unfold bold_count_of
  split_ifs <;> omega

lemma bold_count_of_le (n : Nat) (h : 1 ≤ n) : bold_count_of n ≤ n := by
  unfold bold_count_of
  split_ifs <;> omega

lemma bold_count_of_lt (n : Nat) (h : 2 ≤ n) : bold_count_of n < n := by
  unfold bold_count_of
  split_ifs <;> omega

lemma boldCountSpec_eq_bold_count_of (n : Nat) (h : 1 ≤ n) :
    boldCountSpec n = bold_count_of n := by
  unfold boldCountSpec bold_count_of
  split_ifs <;> omega

lemma boldCountSpec_mono {m n : Nat} (h : m ≤ n) :
    boldCountSpec m ≤ boldCountSpec n := by
  unfold boldCountSpec
  split_ifs <;> omega

/-- Total number of alphanumeric characters inside bold runs. -/
def boldAlnumCount : List Run → Nat
  | [] => 0
  | r :: rs => (if r.bold then countAlnum r.text else 0) + boldAlnumCount rs

/-- The number of alphanumerics the emitter styles bold on any content
token equals the specification's rule table applied to the token's
alphanumeric count. -/
lemma boldAlnumCount_contentRuns (t : List Char) :
    boldAlnumCount (contentRuns t) = boldCountSpec (countAlnum t) := by
  unfold contentRuns
  by_cases h0 : countAlnum t = 0
  · simp [h0, boldAlnumCount, boldCountSpec]
  · rw [if_neg h0]
    have h1 : 1 ≤ countAlnum t := by omega
    rw [boldCountSpec_eq_bold_count_of _ h1]
    cases hfc : findCut (bold_count_of (countAlnum t)) 0 t with
    | none =>
        have hle := (findCut_eq_none _ t 0 (Nat.zero_le _)).1 hfc
        have hge := bold_count_of_le _ h1
        simp [boldAlnumCount]
        omega
    | some i =>
        have := (findCut_eq_some _ t 0 i (Nat.zero_le _) hfc).2.1
        simp [boldAlnumCount]
        omega

/-! ## Claims about the emitter -/

/-- Claim C2: emphasis length rule table.  For every content token, the
number of leading alphanumeric characters emphasized equals `0` when the
token has `0` alphanumerics (passed through unstyled), `1` for counts
`1–3`, `2` for count `4`, and `max 1 ⌊n·0.4⌋` for counts `n ≥ 5`, with
truncation toward zero and no other rounding. -/
theorem emphasis_rule_table (t : List Char) :
    boldAlnumCount (contentRuns t) = boldCountSpec (countAlnum t) :=
  boldAlnumCount_contentRuns t

/-- Claim C3: cut-index rule.  A content token whose alphanumeric count
strictly exceeds its bold count is emitted as exactly two runs: a bold run
`t.take i` and a plain run `t.drop i`, where `i` is the first character
position at which the running alphanumeric counter would exceed the bold
count — so non-alphanumeric characters before the cut land in the bold
run. -/
theorem cut_index_rule (t : List Char)
    (h1 : 0 < countAlnum t)
    (h2 : bold_count_of (countAlnum t) < countAlnum t) :
    ∃ i, contentRuns t = [⟨t.take i, true⟩, ⟨t.drop i, false⟩] ∧
      bold_count_of (countAlnum t) < countAlnum (t.take (i + 1)) ∧
      ∀ j, j < i → countAlnum (t.take (j + 1)) ≤ bold_count_of (countAlnum t) := by
  cases hfc : findCut (bold_count_of (countAlnum t)) 0 t with
  | none =>
      have := (findCut_eq_none _ t 0 (Nat.zero_le _)).1 hfc
      omega
  | some i =>
      obtain ⟨-, -, hexc, hmin⟩ := findCut_eq_some _ t 0 i (Nat.zero_le _) hfc
      refine ⟨i, ?_, by omega, fun j hj => by have := hmin j hj; omega⟩
      unfold contentRuns
      rw [if_neg (by omega), hfc]

/-- Witness for claim C3 at the specification's example `"it's"`:
three alphanumerics give bold count `1`, the counter exceeds `1` at
position `1`, so the bold run is `"i"` and the plain run is `"t's"`. -/
theorem cut_index_rule_witness :
    0 < countAlnum ['i', 't', Char.ofNat 39, 's'] ∧
      bold_count_of (countAlnum ['i', 't', Char.ofNat 39, 's']) <
        countAlnum ['i', 't', Char.ofNat 39, 's'] ∧
      contentRuns ['i', 't', Char.ofNat 39, 's'] =
        [⟨['i'], true⟩, ⟨['t', Char.ofNat 39, 's'], false⟩] ∧
      (∃ i, contentRuns ['i', 't', Char.ofNat 39, 's'] =
          [⟨['i', 't', Char.ofNat 39, 's'].take i, true⟩,
            ⟨['i', 't', Char.ofNat 39, 's'].drop i, false⟩] ∧
        bold_count_of (countAlnum ['i', 't', Char.ofNat 39, 's']) <
          countAlnum (['i', 't', Char.ofNat 39, 's'].take (i + 1)) ∧
        ∀ j, j < i → countAlnum (['i', 't', Char.ofNat 39, 's'].take (j + 1)) ≤
          bold_count_of (countAlnum ['i', 't', Char.ofNat 39, 's'])) :=
  ⟨by decide, by decide, by decide, cut_index_rule _ (by decide) (by decide)⟩

/-- Claim C4, counterexample: the single-letter token `"a"` has one
alphanumeric character, its alphanumeric count does not strictly exceed
its bold count (both are `1`), the scan completes without the counter ever
exceeding the bold count, and the defensive full-bold path is taken. -/
theorem defensive_path_counterexample :
    countAlnum ['a'] = 1 ∧
      ¬ bold_count_of (countAlnum ['a']) < countAlnum ['a'] ∧
      findCut (bold_count_of (countAlnum ['a'])) 0 ['a'] = none ∧
      contentRuns ['a'] = [⟨['a'], true⟩] := by
  decide

/-- Claim C4, amended: for every content token with at least **two**
alphanumeric characters the alphanumeric count strictly exceeds the bold
count, so the scan cannot complete without the counter exceeding it; with
exactly one alphanumeric character the counts are equal and the full-bold
path is reachable (see the counterexample). -/
theorem defensive_path_amended (t : List Char) (h : 2 ≤ countAlnum t) :
    bold_count_of (countAlnum t) < countAlnum t ∧
      findCut (bold_count_of (countAlnum t)) 0 t ≠ none := by
  have hlt := bold_count_of_lt _ h
  refine ⟨hlt, fun hnone => ?_⟩
  have := (findCut_eq_none _ t 0 (Nat.zero_le _)).1 hnone
  omega

/-- Witness for the amended claim C4 at the token `"cat"`. -/
theorem defensive_path_amended_witness :
    2 ≤ countAlnum ['c', 'a', 't'] ∧
      (bold_count_of (countAlnum ['c', 'a', 't']) < countAlnum ['c', 'a', 't'] ∧
        findCut (bold_count_of (countAlnum ['c', 'a', 't'])) 0 ['c', 'a', 't'] ≠ none) :=
  ⟨by decide, defensive_path_amended _ (by decide)⟩

/-- Claim C5: full-bold fallback.  A content token whose alphanumeric
count is at least `1` but does not exceed its bold count is emitted as
exactly one run containing the entire token text, marked bold. -/
theorem full_bold_fallback (t : List Char) (h1 : 1 ≤ countAlnum t)
    (h2 : countAlnum t ≤ bold_count_of (countAlnum t)) :
    contentRuns t = [⟨t, true⟩] := by
  unfold contentRuns
  rw [if_neg (by omega),
    (findCut_eq_none _ t 0 (Nat.zero_le _)).2 (by omega)]

/-- Witness for claim C5 at the single-letter token `"a"`. -/
theorem full_bold_fallback_witness :
    1 ≤ countAlnum ['a'] ∧
      countAlnum ['a'] ≤ bold_count_of (countAlnum ['a']) ∧
      contentRuns ['a'] = [⟨['a'], true⟩] :=
  ⟨by decide, by decide, full_bold_fallback _ (by decide) (by decide)⟩

/-- Claim C8: zero-alphanumeric pass-through.  A token with no
alphanumeric characters (dash-only or not, e.g. `"..."`) is emitted as
exactly one non-bold run equal to the token text, and the empty input
string produces the empty run sequence rather than an error. -/
theorem zero_alnum_passthrough :
    (∀ t : List Char, t ≠ [] → countAlnum t = 0 →
        subchunkRuns t = [⟨t, false⟩]) ∧
      convert_to_bionic_str [] = [] := by
  refine ⟨fun t _ h0 => ?_, by simp [convert_to_bionic_str, splitRuns]⟩
  unfold subchunkRuns
  split
  · rfl
  · unfold contentRuns
    rw [if_pos h0]

/-- Witness for claim C8 at the token `"..."`. -/
theorem zero_alnum_passthrough_witness :
    ['.', '.', '.'] ≠ ([] : List Char) ∧
      countAlnum ['.', '.', '.'] = 0 ∧
      subchunkRuns ['.', '.', '.'] = [⟨['.', '.', '.'], false⟩] :=
  ⟨by decide, by decide,
    zero_alnum_passthrough.1 ['.', '.', '.'] (by decide) (by decide)⟩

/-- Claim C9: monotonicity of the emphasis length rule.  The rule is a
non-decreasing step function of the alphanumeric count, both as the table
itself and as the number of alphanumerics the emitter styles bold. -/
theorem emphasis_rule_monotone (m n : Nat) (h : m ≤ n) :
    boldCountSpec m ≤ boldCountSpec n ∧
      ∀ t u : List Char, countAlnum t = m → countAlnum u = n →
        boldAlnumCount (contentRuns t) ≤ boldAlnumCount (contentRuns u) := by
  refine ⟨boldCountSpec_mono h, fun t u ht hu => ?_⟩
  rw [boldAlnumCount_contentRuns, boldAlnumCount_contentRuns, ht, hu]
  exact boldCountSpec_mono h

/-- Witness for claim C9 at the counts `3 ≤ 5` with the tokens `"cat"`
and `"hello"`. -/
theorem emphasis_rule_monotone_witness :
    boldCountSpec 3 ≤ boldCountSpec 5 ∧
      boldAlnumCount (contentRuns ['c', 'a', 't']) ≤
        boldAlnumCount (contentRuns ['h', 'e', 'l', 'l', 'o']) :=
  ⟨(emphasis_rule_monotone 3 5 (by decide)).1,
    (emphasis_rule_monotone 3 5 (by decide)).2 _ _ (by decide) (by decide)⟩

/-! ## Maximal runs in the segmenter: dash-run invariance -/

lemma takeWhile_append_pos (q : Char → Bool) (u w : List Char)
    (hu : ∀ d ∈ u, q d = true) :
    (u ++ w).takeWhile q = u ++ w.takeWhile q ∧
      (u ++ w).dropWhile q = w.dropWhile q := by
  induction u with
  | nil => simp
  | cons x u' ih =>
      have hx := hu x (List.mem_cons_self x u')
      have := ih fun d hd => hu d (List.mem_cons_of_mem x hd)
      simp [List.takeWhile_cons, List.dropWhile_cons, hx, this]

lemma takeWhile_append_neg (q : Char → Bool) (u w : List Char)
    (hu : ¬ ∀ d ∈ u, q d = true) :
    (u ++ w).takeWhile q = u.takeWhile q ∧
      (u ++ w).dropWhile q = u.dropWhile q ++ w := by
  induction u with
  | nil => exact absurd (by simp) hu
  | cons x u' ih =>
      by_cases hx : q x = true
      · have hu' : ¬ ∀ d ∈ u', q d = true := by
          intro hall
          exact hu fun d hd => by
            rcases List.mem_cons.1 hd with rfl | hd
            · exact hx
            · exact hall d hd
        simp [List.takeWhile_cons, List.dropWhile_cons, hx, ih hu']
      · simp [List.takeWhile_cons, List.dropWhile_cons, hx]

lemma takeWhile_head_neg (q : Char → Bool) (w : List Char)
    (hw : ∀ d, w.head? = some d → q d = false) :
    w.takeWhile q = [] ∧ w.dropWhile q = w := by
  cases w with
  | nil => simp
  | cons d w' => simp [List.takeWhile_cons, List.dropWhile_cons, hw d rfl]

/-- A homogeneous nonempty prefix whose class differs from the head of the
remainder is produced by `splitRuns` as one token. -/
lemma splitRuns_homog_cons (p : Char → Bool) (v : Bool) (t b : List Char)
    (ht : t ≠ []) (htv : ∀ c ∈ t, p c = v)
    (hb : ∀ d, b.head? = some d → p d ≠ v) :
    splitRuns p (t ++ b) = t :: splitRuns p b := by
  cases t with
  | nil => exact absurd rfl ht
  | cons c t' =>
      have hc : p c = v := htv c (List.mem_cons_self c t')
      obtain ⟨htake, hdrop⟩ :=
        takeWhile_append_pos (fun d => p d == p c) t' b
          fun d hd => by simp [htv d (List.mem_cons_of_mem c hd), hc]
      obtain ⟨hbtake, hbdrop⟩ :=
        takeWhile_head_neg (fun d => p d == p c) b
          fun d hd => by
            have := hb d hd
            simp [hc]
            intro hpd
            exact this hpd
      rw [List.cons_append, splitRuns, htake, hbtake, hdrop, hbdrop,
        List.append_nil]

/-- Splitting into maximal runs distributes over a decomposition whose
middle is a homogeneous run whose class differs on both boundaries. -/
lemma splitRuns_append_context (p : Char → Bool) (v : Bool) (t b : List Char)
    (ht : t ≠ []) (htv : ∀ c ∈ t, p c = v)
    (hb : ∀ d, b.head? = some d → p d ≠ v) :
    ∀ a : List Char, (∀ d, a.getLast? = some d → p d ≠ v) →
      splitRuns p (a ++ (t ++ b)) = splitRuns p a ++ t :: splitRuns p b := by
  intro a
  induction a using splitRuns.induct p with
  | case1 =>
      intro _
      simpa [splitRuns] using splitRuns_homog_cons p v t b ht htv hb
  | case2 c cs ih =>
      intro ha
      have hne : (c :: cs) ≠ [] := by simp
      by_cases hall : ∀ d ∈ cs, (fun d => p d == p c) d = true
      · have hclass : p ((c :: cs).getLast hne) = p c := by
          rcases List.mem_cons.1 (List.getLast_mem hne) with h | h
          · rw [h]
          · simpa using hall _ h
        have hvc : p c ≠ v := by
          have := ha _ (List.getLast?_eq_getLast _ hne)
          rw [hclass] at this
          exact this
        obtain ⟨htake, hdrop⟩ :=
          takeWhile_append_pos (fun d => p d == p c) cs (t ++ b) hall
        obtain ⟨httake, htdrop⟩ :=
          takeWhile_head_neg (fun d => p d == p c) (t ++ b)
            fun d hd => by
              have hdt : t.head? = some d := by
                cases t with
                | nil => exact absurd rfl ht
                | cons x t' => simpa using hd
              have hdv : p d = v := htv d (List.mem_of_mem_head? hdt)
              simp [hdv]
              intro hvpc
              exact hvc (by rw [← hvpc])
        obtain ⟨hstake, hsdrop⟩ :=
          takeWhile_append_pos (fun d => p d == p c) cs [] hall
        simp only [List.append_nil, List.takeWhile_nil, List.dropWhile_nil]
          at hstake hsdrop
        rw [List.cons_append, splitRuns, htake, httake, hdrop, htdrop,
          List.append_nil, splitRuns_homog_cons p v t b ht htv hb]
        conv_rhs => rw [splitRuns]
        rw [hstake, hsdrop]
        simp [splitRuns]
      · obtain ⟨htake, hdrop⟩ :=
          takeWhile_append_neg (fun d => p d == p c) cs (t ++ b) hall
        have hdne : cs.dropWhile (fun d => p d == p c) ≠ [] := by
          intro hnil
          exact hall (List.dropWhile_eq_nil_iff.1 hnil)
        have ha' : ∀ d, (cs.dropWhile (fun d => p d == p c)).getLast? = some d →
            p d ≠ v := by
          intro d hd
          refine ha d ?_
          have hcs : c :: cs =
              (c :: cs.takeWhile (fun d => p d == p c)) ++
                cs.dropWhile (fun d => p d == p c) := by
            rw [List.cons_append, List.takeWhile_append_dropWhile]
          rw [hcs, List.getLast?_append_of_ne_nil _ hdne, hd]
        rw [List.cons_append, splitRuns, htake, hdrop, ih ha']
        conv_rhs => rw [splitRuns]
        simp

/-- Dash characters are not whitespace. -/
lemma isDashChar_not_whitespace (c : Char) (h : isDashChar c = true) :
    c.isWhitespace = false := by
  simp only [isDashChar, Bool.or_eq_true, decide_eq_true_eq] at h
  rcases h with (rfl | rfl) | rfl <;> decide

/-- Claim C6: dash-run invariance.  For every maximal run `t` composed
only of the dash-like characters (its neighbours on either side, when
present, are not dash-like), the transform emits for `t` exactly one run,
non-bold, whose text is the original dash run verbatim — surrounded by the
runs of the two remaining parts of the chunk. -/
theorem dash_run_invariance (a t b : List Char)
    (ht : t ≠ []) (hdash : ∀ c ∈ t, isDashChar c = true)
    (ha : ∀ d, a.getLast? = some d → isDashChar d = false)
    (hb : ∀ d, b.head? = some d → isDashChar d = false) :
    chunkRuns (a ++ (t ++ b)) =
      (splitRuns isDashChar a).flatMap subchunkRuns ++
        ⟨t, false⟩ :: (splitRuns isDashChar b).flatMap subchunkRuns := by
  have hnotws : ¬ (a ++ (t ++ b)).all Char.isWhitespace = true := by
    intro hall
    cases t with
    | nil => exact ht rfl
    | cons c t' =>
        have hmem : c ∈ a ++ (c :: t' ++ b) := by simp
        have hws := List.all_eq_true.1 hall c hmem
        rw [isDashChar_not_whitespace c (hdash c (List.mem_cons_self c t'))]
          at hws
        exact Bool.false_ne_true hws
  unfold chunkRuns
  rw [if_neg hnotws,
    splitRuns_append_context isDashChar true t b ht hdash
      (fun d hd => by simp [hb d hd]) a (fun d hd => by simp [ha d hd])]
  have hsub : subchunkRuns t = [⟨t, false⟩] := by
    unfold subchunkRuns
    rw [if_pos (List.all_eq_true.2 hdash)]
  simp [hsub]

/-- Witness for claim C6 at the chunk `"x--y"`: the maximal dash run
`"--"` is emitted verbatim as a single non-bold run between the runs of
`"x"` and `"y"`. -/
theorem dash_run_invariance_witness :
    (['-', '-'] : List Char) ≠ [] ∧
      (∀ c ∈ (['-', '-'] : List Char), isDashChar c = true) ∧
      chunkRuns (['x'] ++ (['-', '-'] ++ ['y'])) =
        (splitRuns isDashChar ['x']).flatMap subchunkRuns ++
          ⟨['-', '-'], false⟩ ::
            (splitRuns isDashChar ['y']).flatMap subchunkRuns :=
  ⟨by decide, by decide,
    dash_run_invariance ['x'] ['-', '-'] ['y'] (by decide) (by decide)
      (fun d hd => by
        obtain rfl : 'x' = d := by simpa using hd
        decide)
      (fun d hd => by
        obtain rfl : 'y' = d := by simpa using hd
        decide)⟩

/-! ## The markup tree and `convert_to_bionic` -/

/-- A node of the parsed markup tree: a `NavigableString`, or a `Tag`
with its name and ordered list of children. -/
inductive Node where
  | text : List Char → Node
  | elem : String → List Node → Node

/-- Python's `len(child.text.strip())` is nonzero exactly when the text
holds at least one non-whitespace character. -/
def hasContent (s : List Char) : Bool :=
  s.any fun c => !c.isWhitespace

/-- The node appended to the `span` for one run: a `<b>` tag wrapping the
string (lines 78–80 and 87–89) or the plain string itself. -/
def runNode (r : Run) : Node :=
  if r.bold then .elem "b" [.text r.text] else .text r.text

/-- The `<span>` fragment that `convert_to_bionic_str` builds for one text
node (line 29 plus the appends): its children are the emitted runs. -/
def bionicFragment (s : List Char) : Node :=
  .elem "span" ((convert_to_bionic_str s).map runNode)

mutual

/-- The tree mutation of `convert_to_bionic` (lines 93–103): the
`soup.descendants` loop visits every descendant tag; each tag named `"p"`
replaces, in its snapshot `list(e.children)` of direct children, every
`NavigableString` child with non-whitespace content by the bionic `span`
fragment.  The fragments inserted during the walk contain no `"p"` tag, so
the live traversal is equivalent to this recursive description. -/
def convertNode : Node → Node
  | .text s => .text s
  | .elem tag cs => .elem tag (convertChildren tag cs)

/-- Processing of the direct children of one tag: a text child is replaced
only under a `"p"` tag and only when `len(child.text.strip())` is nonzero;
an element child is itself traversed (the descendants loop reaches it),
but never re-parented. -/
def convertChildren (tag : String) : List Node → List Node
  | [] => []
  | .text s :: rest =>
      (if tag = "p" then
        (if hasContent s then bionicFragment s else .text s)
       else .text s) :: convertChildren tag rest
  | .elem t' cs' :: rest =>
      convertNode (.elem t' cs') :: convertChildren tag rest

end

mutual

/-- No tag named `"p"` occurs in the node (itself included). -/
def pFree : Node → Bool
  | .text _ => true
  | .elem tag cs => !(tag == "p") && pFreeList cs

/-- No tag named `"p"` occurs in any of the nodes. -/
def pFreeList : List Node → Bool
  | [] => true
  | c :: rest => pFree c && pFreeList rest

end

/-- Induction over the tree with the inductive hypothesis available for
every direct child. -/
theorem node_induction (P : Node → Prop)
    (htext : ∀ s, P (.text s))
    (helem : ∀ tag cs, (∀ c ∈ cs, P c) → P (.elem tag cs)) :
    ∀ n, P n
  | .text s => htext s
  | .elem tag cs => helem tag cs fun c hc =>
      node_induction P htext helem c
termination_by n => sizeOf n
decreasing_by
  have := List.sizeOf_lt_of_mem hc
  simp only [Node.elem.sizeOf_spec]
  omega

@[simp] lemma convertNode_text (s : List Char) :
    convertNode (.text s) = .text s := by
  rw [convertNode]

lemma convertNode_elem (tag : String) (cs : List Node) :
    convertNode (.elem tag cs) = .elem tag (convertChildren tag cs) := by
  rw [convertNode]

@[simp] lemma convertChildren_nil (tag : String) :
    convertChildren tag [] = [] := by
  rw [convertChildren]

lemma convertChildren_text (tag : String) (s : List Char) (rest : List Node) :
    convertChildren tag (.text s :: rest) =
      (if tag = "p" then
        (if hasContent s then bionicFragment s else .text s)
       else .text s) :: convertChildren tag rest := by
  rw [convertChildren]

lemma convertChildren_elem (tag t' : String) (cs' rest : List Node) :
    convertChildren tag (.elem t' cs' :: rest) =
      convertNode (.elem t' cs') :: convertChildren tag rest := by
  rw [convertChildren]

@[simp] lemma pFree_text (s : List Char) : pFree (.text s) = true := by
  rw [pFree]

lemma pFree_elem (tag : String) (cs : List Node) :
    pFree (.elem tag cs) = (!(tag == "p") && pFreeList cs) := by
  rw [pFree]

@[simp] lemma pFreeList_nil : pFreeList [] = true := by
  rw [pFreeList]

lemma pFreeList_cons (c : Node) (rest : List Node) :
    pFreeList (c :: rest) = (pFree c && pFreeList rest) := by
  rw [pFreeList]

lemma convertChildren_append (tag : String) (l₁ l₂ : List Node) :
    convertChildren tag (l₁ ++ l₂) =
      convertChildren tag l₁ ++ convertChildren tag l₂ := by
  induction l₁ with
  | nil => simp
  | cons c rest ih =>
      cases c with
      | text s => simp [convertChildren_text, ih]
      | elem t' cs' => simp [convertChildren_elem, ih]

lemma convertChildren_of_pFree (tag : String) (htag : tag ≠ "p") :
    ∀ cs : List Node, pFreeList cs = true →
      (∀ c ∈ cs, pFree c = true → convertNode c = c) →
      convertChildren tag cs = cs := by
  intro cs
  induction cs with
  | nil => simp
  | cons c rest ih =>
      intro hlist hmem
      rw [pFreeList_cons, Bool.and_eq_true] at hlist
      have hrest := ih hlist.2 fun c hc => hmem c (List.mem_cons_of_mem _ hc)
      cases c with
      | text s => simp [convertChildren_text, htag, hrest]
      | elem t' cs' =>
          rw [convertChildren_elem, hrest,
            hmem _ (List.mem_cons_self _ _) hlist.1]

/-- A node containing no `"p"` tag is returned unchanged: the traversal
only rewrites direct text children of `"p"` tags. -/
lemma pFree_unchanged : ∀ n : Node, pFree n = true → convertNode n = n := by
  intro n
  induction n using node_induction with
  | htext s => intro _; simp
  | helem tag cs ih =>
      intro h
      rw [pFree_elem, Bool.and_eq_true] at h
      have htag : tag ≠ "p" := by simpa using h.1
      rw [convertNode_elem, convertChildren_of_pFree tag htag cs h.2 ih]

lemma convertChildren_runNodes (tag : String) (htag : tag ≠ "p")
    (rs : List Run) :
    convertChildren tag (rs.map runNode) = rs.map runNode := by
  induction rs with
  | nil => simp
  | cons r rest ih =>
      by_cases hb : r.bold
      · simp only [List.map_cons, runNode, hb, if_true,
          convertChildren_elem, convertNode_elem, convertChildren_text,
          convertChildren_nil, ih]
        simp
      · simp [runNode, hb, convertChildren_text, htag, ih]

/-- The replacement fragment is a fixed point of the transform: it is a
`span` (not a `p`, not a text node) whose children are plain strings and
`b`-wrapped strings. -/
lemma convertNode_fragment (s : List Char) :
    convertNode (bionicFragment s) = bionicFragment s := by
  rw [bionicFragment, convertNode_elem,
    convertChildren_runNodes _ (by decide)]

/-- Claim C7: tree-mutation frame.  In a paragraph element, the transform
replaces exactly the direct text children with non-whitespace content by
the bionic fragment; an empty or all-whitespace text child stays in place
unchanged, and an element child containing no nested paragraph (nested
inline markup) stays in place byte-for-byte unchanged — the transform does
not recurse into it.  The surrounding children are processed independently
of the distinguished child. -/
theorem paragraph_frame (cs₁ cs₂ : List Node) :
    (∀ s : List Char, hasContent s = false →
        convertNode (.elem "p" (cs₁ ++ .text s :: cs₂)) =
          .elem "p" (convertChildren "p" cs₁ ++
            .text s :: convertChildren "p" cs₂)) ∧
      (∀ (t' : String) (cs' : List Node), pFree (.elem t' cs') = true →
        convertNode (.elem "p" (cs₁ ++ .elem t' cs' :: cs₂)) =
          .elem "p" (convertChildren "p" cs₁ ++
            .elem t' cs' :: convertChildren "p" cs₂)) ∧
      (∀ s : List Char, hasContent s = true →
        convertNode (.elem "p" (cs₁ ++ .text s :: cs₂)) =
          .elem "p" (convertChildren "p" cs₁ ++
            bionicFragment s :: convertChildren "p" cs₂)) := by
  refine ⟨fun s hs => ?_, fun t' cs' hp => ?_, fun s hs => ?_⟩
  · rw [convertNode_elem, convertChildren_append, convertChildren_text]
    simp [hs]
  · rw [convertNode_elem, convertChildren_append, convertChildren_elem,
      pFree_unchanged _ hp]
  · rw [convertNode_elem, convertChildren_append, convertChildren_text]
    simp [hs]

/-- Witness for claim C7: a paragraph `<p>hi<b>x</b> </p>` keeps its
nested `<b>` element child in place unchanged. -/
theorem paragraph_frame_witness :
    pFree (.elem "b" [.text ['x']]) = true ∧
      convertNode (.elem "p"
          ([Node.text ['h', 'i']] ++ .elem "b" [.text ['x']] :: [Node.text [' ']])) =
        .elem "p" (convertChildren "p" [Node.text ['h', 'i']] ++
          .elem "b" [.text ['x']] :: convertChildren "p" [Node.text [' ']]) := by
  have hp : pFree (.elem "b" [.text ['x']]) = true := by
    rw [pFree_elem, pFreeList_cons, pFree_text, pFreeList_nil]
    decide
  exact ⟨hp,
    (paragraph_frame [Node.text ['h', 'i']] [Node.text [' ']]).2.1 "b"
      [.text ['x']] hp⟩

lemma convertChildren_idem (tag : String) :
    ∀ cs : List Node,
      (∀ c ∈ cs, convertNode (convertNode c) = convertNode c) →
      convertChildren tag (convertChildren tag cs) = convertChildren tag cs := by
  intro cs
  induction cs with
  | nil => simp
  | cons c rest ih =>
      intro hmem
      have hrest := ih fun c hc => hmem c (List.mem_cons_of_mem _ hc)
      cases c with
      | text s =>
          rw [convertChildren_text]
          by_cases htag : tag = "p"
          · by_cases hcont : hasContent s
            · rw [if_pos htag, if_pos hcont, bionicFragment,
                convertChildren_elem, hrest, ← bionicFragment,
                convertNode_fragment]
            · rw [if_pos htag, if_neg hcont, convertChildren_text,
                if_pos htag, if_neg hcont, hrest]
          · rw [if_neg htag, convertChildren_text, if_neg htag, hrest]
      | elem t' cs' =>
          rw [convertChildren_elem, convertNode_elem, convertChildren_elem,
            hrest, ← convertNode_elem,
            hmem _ (List.mem_cons_self _ _), convertNode_elem]

/-- Claim C10: idempotence.  Applying the paragraph text-node replacement
twice to a markup tree equals applying it once: every inserted fragment is
a `span` element whose children survive a second traversal, and the
remaining text children of a processed paragraph are all-whitespace and
are skipped. -/
theorem transform_idempotent (n : Node) :
    convertNode (convertNode n) = convertNode n := by
  induction n using node_induction with
  | htext s => simp
  | helem tag cs ih =>
      simp only [convertNode_elem]
      exact congrArg _ (convertChildren_idem tag cs ih)

end Bionic
